import Mathlib

/-!
Shallow embedding of the core of `pop_film_scraper.py` (letterboxd popular
film trends scraper), together with proofs about its ranking reconciliation,
enrichment ordering and CSV persistence logic.

Python dicts are modelled as insertion-ordered association lists (`OMap`):
assignment to an existing key updates the value in place (keeping the key's
position), assignment to a fresh key appends at the end — exactly the
semantics of CPython dicts that the source relies on.  HTTP fetching is
modelled as an oracle function: for listing pages a function from page
number (and pass number) to `Option (List (filmId × filmUrl))`, where
`none` models a non-200 response; for detail pages a function from film URL
to `Option FilmDetails`, where `none` models a failed or skipped fetch.
-/

namespace PopFilmScraper

/-- The MAX_FILMS constant of the script (top-1000 cap). -/
def MAX_FILMS : Nat := 1000

/-- Insertion-ordered map modelling a Python dict: key-value pairs in
insertion order, keys unique when built through `OMap.insert`. -/
abbrev OMap (κ ν : Type) := List (κ × ν)

namespace OMap

/-- Python dict lookup (`d[k]` / `k in d`): value at the first binding of `k`. -/
def lookup [DecidableEq κ] : OMap κ ν → κ → Option ν
  | [], _ => none
  | (k', v) :: m, k => if k' = k then some v else lookup m k

/-- Python dict assignment `d[k] = v`: replace in place if the key is
present, otherwise append at the end. -/
def insert [DecidableEq κ] : OMap κ ν → κ → ν → OMap κ ν
  | [], k, v => [(k, v)]
  | (k', v') :: m, k, v => if k' = k then (k, v) :: m else (k', v') :: insert m k v

/-- The keys of an `OMap`, in insertion order. -/
def keys (m : OMap κ ν) : List κ := m.map Prod.fst

end OMap

section Scraper

variable {α β : Type} [DecidableEq α]

/-- Body of the position loop in `scrape_ajax_pages_single_pass`: record a
film seen at `page`/`position` unless it was already seen on an earlier
page (pages are visited in ascending order, so first-seen wins). -/
def recordFilm (film_data : OMap α (β × Nat × Nat)) (page position : Nat)
    (film_id : α) (film_url : β) : OMap α (β × Nat × Nat) :=
  match film_data.lookup film_id with
  | none => film_data.insert film_id (film_url, page, position)
  | some (_, existing_page, _) =>
      if page < existing_page then film_data.insert film_id (film_url, page, position)
      else film_data

/-- The position loop of `scrape_ajax_pages_single_pass`, with the
1-based position counter explicit. -/
def recordPageFrom (page : Nat) :
    OMap α (β × Nat × Nat) → Nat → List (α × β) → OMap α (β × Nat × Nat)
  | fd, _, [] => fd
  | fd, position, (film_id, film_url) :: rest =>
      recordPageFrom page (recordFilm fd page position film_id film_url) (position + 1) rest

/-- Processing of one fetched page: `enumerate(films_on_page, start=1)`. -/
def recordPage (fd : OMap α (β × Nat × Nat)) (page : Nat)
    (films_on_page : List (α × β)) : OMap α (β × Nat × Nat) :=
  recordPageFrom page fd 1 films_on_page

/-- The page loop of `scrape_ajax_pages_single_pass`, driven by the number
of remaining pages as fuel.  The loop breaks when a fetch fails (`none`,
modelling a non-200 status) or when a page yields no films. -/
def singlePassAux (fetch : Nat → Option (List (α × β))) :
    Nat → Nat → OMap α (β × Nat × Nat) → OMap α (β × Nat × Nat)
  | 0, _, fd => fd
  | fuel + 1, page, fd =>
      match fetch page with
      | none => fd
      | some films_on_page =>
          if films_on_page.isEmpty then fd
          else singlePassAux fetch fuel (page + 1) (recordPage fd page films_on_page)

/-- One observation pass over pages `1 .. pages`: returns the dict mapping
film_id to (film_url, earliest page, position on that page). -/
def scrape_ajax_pages_single_pass (fetch : Nat → Option (List (α × β)))
    (pages : Nat) : OMap α (β × Nat × Nat) :=
  singlePassAux fetch pages 1 []

/-- Per-film aggregate built by the combination loop of `scrape_top_films`. -/
structure Score (β : Type) where
  earliest_page : Nat
  latest_page : Nat
  num_passes : Nat
  film_url : β
  total_positions : List Nat
  deriving DecidableEq, Repr

/-- Aggregate created the first time a film is seen across passes. -/
def initScore (film_url : β) (page : Nat) : Score β :=
  ⟨page, page, 1, film_url, [page]⟩

/-- Aggregate update when a film recurs in a later pass.  Note: the source
updates earliest/latest page, pass count and page list, but leaves
`film_url` unchanged — the URL of the first pass that saw the film wins. -/
def updateScore (s : Score β) (page : Nat) : Score β :=
  ⟨min s.earliest_page page, max s.latest_page page, s.num_passes + 1, s.film_url,
    s.total_positions ++ [page]⟩

/-- Body of the per-film combination loop in `scrape_top_films`. -/
def foldPassEntry (film_scores : OMap α (Score β))
    (entry : α × (β × Nat × Nat)) : OMap α (Score β) :=
  match film_scores.lookup entry.1 with
  | none => film_scores.insert entry.1 (initScore entry.2.1 entry.2.2.1)
  | some s => film_scores.insert entry.1 (updateScore s entry.2.2.1)

/-- Folding one pass's data into the running `film_scores` dict. -/
def foldPass (film_scores : OMap α (Score β))
    (pass_data : OMap α (β × Nat × Nat)) : OMap α (Score β) :=
  pass_data.foldl foldPassEntry film_scores

/-- The combination loop of `scrape_top_films` over all passes. -/
def buildScores (all_passes_data : List (OMap α (β × Nat × Nat))) :
    OMap α (Score β) :=
  all_passes_data.foldl foldPass []

/-- A `Score` together with its computed average page. -/
structure FullScore (β : Type) extends Score β where
  avg_page : ℚ
  deriving DecidableEq, Repr

/-- The average-page computation `sum(total_positions) / len(total_positions)`,
carried out in exact rational arithmetic. -/
def avgOf (positions : List Nat) : ℚ :=
  ((positions.map (fun n => (n : ℚ))).sum) / (positions.length : ℚ)

/-- Attach the average page to a score. -/
def addAvg (s : Score β) : FullScore β := ⟨s, avgOf s.total_positions⟩

/-- The `film_scores` dict after the avg_page pass of `scrape_top_films`. -/
def film_scores_avg (passes : List (OMap α (β × Nat × Nat))) :
    OMap α (FullScore β) :=
  (buildScores passes).map (fun p => (p.1, addAvg p.2))

/-- The Python sort key tuple `(earliest_page, avg_page, -num_passes)`. -/
def sortKey (s : FullScore β) : Nat × ℚ × Int :=
  (s.earliest_page, s.avg_page, -(s.num_passes : Int))

/-- Lexicographic comparison of sort-key triples, as Python compares
key tuples in `sorted`. -/
def keyLE (p q : Nat × ℚ × Int) : Prop :=
  p.1 < q.1 ∨ (p.1 = q.1 ∧ (p.2.1 < q.2.1 ∨ (p.2.1 = q.2.1 ∧ p.2.2 ≤ q.2.2)))

instance keyLE.instDecidable (p q : Nat × ℚ × Int) : Decidable (keyLE p q) := by
  unfold keyLE
  exact inferInstance

/-- Comparison used to sort `film_scores.items()`. -/
def sortRel (a b : α × FullScore β) : Prop :=
  keyLE (sortKey a.2) (sortKey b.2)

instance sortRel.instDecidable (a b : α × FullScore β) : Decidable (sortRel a b) := by
  unfold sortRel
  exact inferInstance

/-- The `sorted_films` list of `scrape_top_films`: the film/score pairs in
dict order, stably sorted by `(earliest_page, avg_page, -num_passes)`.
Python's `sorted` is a stable sort; `List.insertionSort` is also stable,
and any two stable sorts agree, so the embedding is exact. -/
def sorted_films (passes : List (OMap α (β × Nat × Nat))) :
    List (α × FullScore β) :=
  List.insertionSort sortRel (film_scores_avg passes)

/-- Combination, sorting and truncation of `scrape_top_films`, as a function
of the per-pass observation dicts. -/
def reconcilePasses (passes : List (OMap α (β × Nat × Nat))) : List (α × β) :=
  ((sorted_films passes).take MAX_FILMS).map (fun p => (p.1, p.2.film_url))

/-- `scrape_top_films`: run `num_passes` observation passes (the fetch
oracle takes the pass index first, since the live listing can differ
between passes) and reconcile them into the ranked film list. -/
def scrape_top_films (fetch : Nat → Nat → Option (List (α × β)))
    (pages num_passes : Nat) : List (α × β) :=
  reconcilePasses
    ((List.range num_passes).map (fun i => scrape_ajax_pages_single_pass (fetch i) pages))

end Scraper

/-- Per-film attributes extracted by `get_film_details` (title, rating
stats, genres, runtime, TMDB type, description flag, poster). -/
structure FilmDetails where
  film_title : Option String
  rating_count : Option Nat
  rating_value : Option ℚ
  genres : List String
  runtime : Option Nat
  tmdb_type : Option String
  has_description : Bool
  poster_url : Option String
  deriving DecidableEq, Repr

/-- One row of the persisted CSV table, one field per column. -/
structure Row where
  order : Nat
  film_id : String
  film_url : String
  film_title : Option String
  rating_count : Option Nat
  rating_value : Option ℚ
  genres : String
  runtime : Option Nat
  tmdb_type : Option String
  has_description : Bool
  poster_url : Option String
  snapshot_date : String
  deriving DecidableEq, Repr

/-- The de-duplication key used by `drop_duplicates(subset=...)`. -/
def rowKey (r : Row) : String × String := (r.film_id, r.snapshot_date)

/-- Pandas `drop_duplicates(subset=['Film ID', 'Snapshot Date'], keep='first')`,
with the set of keys already seen as accumulator. -/
def dropDuplicatesAux : List (String × String) → List Row → List Row
  | _, [] => []
  | seen, r :: rest =>
      if rowKey r ∈ seen then dropDuplicatesAux seen rest
      else r :: dropDuplicatesAux (rowKey r :: seen) rest

/-- Pandas `drop_duplicates` on (Film ID, Snapshot Date), keeping the first
occurrence of each key. -/
def drop_duplicates (rows : List Row) : List Row := dropDuplicatesAux [] rows

/-- Observable file-system operations of one `save_to_csv` call. -/
inductive FileOp
  | read
  | write
  deriving DecidableEq, Repr

/-- `save_to_csv`: the file state is `none` when no history file exists and
`some table` otherwise (a `some []` file is a header-only CSV).  The new
data and any existing table are de-duplicated separately, concatenated
(existing first) and written back; the returned list records the file
operations performed. -/
def save_to_csv (data : List Row) (file : Option (List Row)) :
    List Row × List FileOp :=
  let new_df := drop_duplicates data
  match file with
  | some existing_df => ((drop_duplicates existing_df) ++ new_df, [FileOp.read, FileOp.write])
  | none => (new_df, [FileOp.write])

/-- Assembling the tuple appended to `scraped_data` in `main` (genres are
comma-joined). -/
def mkRow (order : Nat) (film_id film_url : String) (d : FilmDetails)
    (snapshot_date : String) : Row :=
  ⟨order, film_id, film_url, d.film_title, d.rating_count, d.rating_value,
    String.intercalate ", " d.genres, d.runtime, d.tmdb_type, d.has_description,
    d.poster_url, snapshot_date⟩

/-- Completion of one task of the thread pool in `main`: task `i` stores
the result of its own detail fetch (`none` models a failed fetch or a
raised exception), keyed by its task index. -/
def scheduleStep (films : List (String × String))
    (get_details : String → Option FilmDetails)
    (done : OMap Nat (Option FilmDetails)) (i : Nat) :
    OMap Nat (Option FilmDetails) :=
  match films.get? i with
  | some (_, film_url) => done.insert i (get_details film_url)
  | none => done

/-- The thread pool of `main`: tasks are submitted in ranked-list order
(the futures dict), and the schedule `sched` lists task indices in the
order their fetches complete. -/
def runSchedule (films : List (String × String))
    (get_details : String → Option FilmDetails) (sched : List Nat) :
    OMap Nat (Option FilmDetails) :=
  sched.foldl (scheduleStep films get_details) []

/-- The collection loop of `main`: iterate the futures dict in submission
order, await each task's result (a task missing from `done` never
completes; the loop on the real executor would block, here it is skipped),
and keep a row per successful fetch, tagged with its 1-based order. -/
def collectRows (films : List (String × String))
    (done : OMap Nat (Option FilmDetails)) (snapshot_date : String) : List Row :=
  films.enum.filterMap
    (fun p =>
      match done.lookup p.1 with
      | some (some d) => some (mkRow (p.1 + 1) p.2.1 p.2.2 d snapshot_date)
      | _ => none)

/-- The concurrent enrichment of `main` under a given completion schedule. -/
def enrich_concurrent (films : List (String × String))
    (get_details : String → Option FilmDetails) (sched : List Nat)
    (snapshot_date : String) : List Row :=
  collectRows films (runSchedule films get_details sched) snapshot_date

/-- Schedule-free reference enrichment: one row per film whose detail
fetch succeeds, in ranked-list order. -/
def enrich_list (films : List (String × String))
    (get_details : String → Option FilmDetails) (snapshot_date : String) : List Row :=
  films.enum.filterMap
    (fun p => (get_details p.2.2).map (fun d => mkRow (p.1 + 1) p.2.1 p.2.2 d snapshot_date))

/-- Comparison of rows by their Order column. -/
def orderRel (a b : Row) : Prop := a.order ≤ b.order

instance orderRel.instDecidable (a b : Row) : Decidable (orderRel a b) := by
  unfold orderRel
  exact inferInstance

/-- Stably sorting enrichment records by their Order column. -/
def sortByOrder (rows : List Row) : List Row := List.insertionSort orderRel rows

/-- The outcome of one run of `main`: final history-file state, file
operations performed, and whether the enrichment stage ran. -/
structure RunResult where
  file : Option (List Row)
  ops : List FileOp
  enriched : Bool
  deriving DecidableEq, Repr

/-- `main`: scrape the ranked list; if it is empty, return at once without
touching the history file; otherwise enrich concurrently and persist via
`save_to_csv`. -/
def mainRun (fetch : Nat → Nat → Option (List (String × String)))
    (get_details : String → Option FilmDetails) (pages num_passes : Nat)
    (sched : List Nat) (snapshot_date : String) (file : Option (List Row)) :
    RunResult :=
  let films := scrape_top_films fetch pages num_passes
  if films.isEmpty then ⟨file, [], false⟩
  else
    let scraped_data := enrich_concurrent films get_details sched snapshot_date
    let result := save_to_csv scraped_data file
    ⟨some result.1, result.2, true⟩

section SpecSide

variable {α β : Type} [DecidableEq α]

/-- Predicate on a page number: its fetch succeeds and yields at least one
film.  These are exactly the two continuation conditions of the page loop. -/
def pageOK (fetch : Nat → Option (List (α × β))) (page : Nat) : Bool :=
  match fetch page with
  | none => false
  | some films_on_page => !films_on_page.isEmpty

/-- The consecutive page numbers `start, start+1, ..., start+fuel-1`. -/
def pageRange (start fuel : Nat) : List Nat :=
  (List.range fuel).map (· + start)

/-- Processing a given list of pages unconditionally, in order. -/
def processAllPages (fetch : Nat → Option (List (α × β)))
    (fd : OMap α (β × Nat × Nat)) (pgs : List Nat) : OMap α (β × Nat × Nat) :=
  pgs.foldl (fun fd page => recordPage fd page ((fetch page).getD [])) fd

/-- The entries a page contributes when none of its films were seen before:
film `k` of the page is recorded at position `pos + k`. -/
def pageEntries (page pos : Nat) : List (α × β) → List (α × (β × Nat × Nat))
  | [] => []
  | (film_id, film_url) :: rest =>
      (film_id, (film_url, page, pos)) :: pageEntries page (pos + 1) rest

/-- The locator recorded by the first pass (in iteration order) in which a
film appears at all. -/
def firstPassUrl (passes : List (OMap α (β × Nat × Nat))) (film_id : α) :
    Option β :=
  (passes.findSome? (fun p => p.lookup film_id)).map (fun v => v.1)

/-- Strict ordering of pass entries by (page, position); the insertion
order of a single-pass dict is strictly increasing in this sense. -/
def pagePosLT (a b : α × (β × Nat × Nat)) : Prop :=
  a.2.2.1 < b.2.2.1 ∨ (a.2.2.1 = b.2.2.1 ∧ a.2.2.2 < b.2.2.2)

/-- Ordering of pass entries by (page, position), non-strict.  Used by the
specification-side description of the single-pass ranking. -/
def pagePosRel (a b : α × (β × Nat × Nat)) : Prop :=
  a.2.2.1 < b.2.2.1 ∨ (a.2.2.1 = b.2.2.1 ∧ a.2.2.2 ≤ b.2.2.2)

instance pagePosRel.instDecidable (a b : α × (β × Nat × Nat)) :
    Decidable (pagePosRel a b) := by
  unfold pagePosRel
  exact inferInstance

/-- Specification-side ranking of a single pass, following the spec's words
for P1: the pass's (identity, locator) pairs ordered by (earliest page,
position on that page), truncated to MAX_ITEMS.  Written for the refinement
claim, to be compared with the implementation's reconciliation. -/
def singlePassRankedSpec (pass_data : OMap α (β × Nat × Nat)) : List (α × β) :=
  ((List.insertionSort pagePosRel pass_data).take MAX_FILMS).map
    (fun p => (p.1, p.2.1))

end SpecSide

/-! ### Concrete fixtures used by witnesses and counterexamples -/

/-- Fetch oracle for the C2 counterexample: pass 0 sees film 9 on page 1
(url 90) and film 7 on page 2 (url 100); pass 1 sees film 7 on page 1
(url 200) and then fails. -/
def c2Fetch : Nat → Nat → Option (List (Nat × Nat))
  | 0, 1 => some [(9, 90)]
  | 0, 2 => some [(7, 100)]
  | 1, 1 => some [(7, 200)]
  | _, _ => none

/-- A page carrying `MAX_FILMS` distinct films. -/
def bigPage : List (Nat × Nat) :=
  (List.range MAX_FILMS).map (fun i => (i, i))

/-- Fetch oracle for the C3 counterexample: page 1 already yields
`MAX_FILMS` distinct films, page 2 yields one more. -/
def c3Fetch : Nat → Option (List (Nat × Nat))
  | 1 => some bigPage
  | 2 => some [(2000, 42)]
  | _ => none

/-- Two passes over four films, giving distinct earliest pages, average
pages and pass counts; used by the witnesses of the ordering claims. -/
def passes56 : List (OMap Nat (Nat × Nat × Nat)) :=
  [[(1, (10, 1, 1)), (2, (20, 1, 2)), (3, (30, 1, 3)), (4, (40, 2, 1))],
   [(1, (11, 1, 1)), (2, (21, 2, 1))]]

/-- A sample CSV row. -/
def exRow : Row :=
  ⟨1, "f1", "u1", some "T", none, none, "", none, none, false, none, "2026-10-12"⟩

/-- A listing oracle whose every page is empty: no film is ever observed. -/
def emptyFetch : Nat → Nat → Option (List (String × String)) :=
  fun _ _ => some []

/-- A detail oracle that always fails. -/
def gdNone : String → Option FilmDetails :=
  fun _ => none

/-- A two-film ranked list for the enrichment witnesses. -/
def films7 : List (String × String) := [("a", "u1"), ("b", "u2")]

/-- A detail oracle succeeding on the two urls of `films7`. -/
def gd7 : String → Option FilmDetails
  | "u1" => some ⟨some "T1", some 5, some 4, ["Drama"], some 100, some "movie", true, none⟩
  | "u2" => some ⟨some "T2", none, none, [], none, none, false, none⟩
  | _ => none

/-! ### Association-map lemmas -/

theorem OMap.lookup_insert_self [DecidableEq κ] (m : OMap κ ν) (k : κ) (v : ν) :
    (m.insert k v).lookup k = some v := by
  induction m with
  | nil => simp [OMap.insert, OMap.lookup]
  | cons p m ih =>
      by_cases h : p.1 = k
      · simp [OMap.insert, OMap.lookup, h]
      · simpa [OMap.insert, OMap.lookup, h] using ih

theorem OMap.lookup_insert_ne [DecidableEq κ] (m : OMap κ ν) {k' k : κ} (v : ν)
    (hne : k' ≠ k) : (m.insert k' v).lookup k = m.lookup k := by
  induction m with
  | nil => simp [OMap.insert, OMap.lookup, hne]
  | cons p m ih =>
      by_cases h : p.1 = k'
      · rw [show OMap.insert (p :: m) k' v = (k', v) :: m by simp [OMap.insert, h]]
        simp [OMap.lookup, hne, h]
      · rw [show OMap.insert (p :: m) k' v = p :: OMap.insert m k' v by
          simp [OMap.insert, h]]
        by_cases h2 : p.1 = k <;> simp [OMap.lookup, h2, ih]

theorem OMap.lookup_eq_none_iff [DecidableEq κ] (m : OMap κ ν) (k : κ) :
    m.lookup k = none ↔ k ∉ m.keys := by
  induction m with
  | nil => simp [OMap.lookup, OMap.keys]
  | cons p m ih =>
      by_cases h : p.1 = k
      · simp [OMap.lookup, OMap.keys, h]
      · rw [show OMap.keys (p :: m) = p.1 :: OMap.keys m from rfl]
        simp only [OMap.lookup, h, if_false, List.mem_cons, ih]
        constructor
        · rintro hk ⟨rfl | hm⟩
          · exact h rfl
          · exact hk (by assumption)
        · intro hk hm
          exact hk (Or.inr hm)

theorem OMap.insert_of_not_mem [DecidableEq κ] {m : OMap κ ν} {k : κ} (v : ν)
    (h : k ∉ m.keys) : m.insert k v = m ++ [(k, v)] := by
  induction m with
  | nil => simp [OMap.insert]
  | cons p m ih =>
      rw [show OMap.keys (p :: m) = p.1 :: OMap.keys m from rfl] at h
      simp only [List.mem_cons] at h
      push_neg at h
      have h1 : ¬ p.1 = k := fun hh => h.1 hh.symm
      simp [OMap.insert, h1, ih h.2]

theorem OMap.lookup_singleton [DecidableEq κ] (k : κ) (v : ν) :
    OMap.lookup [(k, v)] k = some v := by
  simp [OMap.lookup]

theorem OMap.lookup_append_right [DecidableEq κ] {m₁ : OMap κ ν} (m₂ : OMap κ ν)
    {k : κ} (h : k ∉ m₁.keys) : OMap.lookup (m₁ ++ m₂) k = m₂.lookup k := by
  induction m₁ with
  | nil => simp
  | cons p m ih =>
      rw [show OMap.keys (p :: m) = p.1 :: OMap.keys m from rfl] at h
      simp only [List.mem_cons] at h
      push_neg at h
      have h1 : ¬ p.1 = k := fun hh => h.1 hh.symm
      simpa [OMap.lookup, h1] using ih h.2

/-! ### C8: truncation to MAX_FILMS -/

/-- C8: for every fetch oracle, page range and number of passes, the ranked
list returned by `scrape_top_films` never has more than MAX_FILMS (1000)
entries. -/
theorem claim_C8_truncation {α β : Type} [DecidableEq α]
    (fetch : Nat → Nat → Option (List (α × β))) (pages num_passes : Nat) :
    (scrape_top_films fetch pages num_passes).length ≤ MAX_FILMS := by
  unfold scrape_top_films reconcilePasses
  rw [List.length_map]
  exact List.length_take_le _ _

/-! ### C10: save_to_csv with an empty record list still writes -/

/-- C10: called with an empty record list, `save_to_csv` still writes the
history file: with no existing file a header-only (zero-row) table is
created; with an existing file the file is read, de-duplicated by
(Film ID, Snapshot Date) keeping first occurrences, and rewritten — so the
on-disk table can change even though the run contributed no records. -/
theorem claim_C10_empty_append :
    save_to_csv [] none = ([], [FileOp.write]) ∧
    ∀ t : List Row,
      save_to_csv [] (some t) = (drop_duplicates t, [FileOp.read, FileOp.write]) := by
  constructor
  · rfl
  · intro t
    simp [save_to_csv, drop_duplicates, dropDuplicatesAux]

/-! ### C1: double append is not idempotent (code bug) -/

/-- C1 (code bug evaluation): appending the same one-row snapshot twice
does not leave one row per (Film ID, Snapshot Date): the first call writes
the row once, the second call writes it again, because `save_to_csv`
de-duplicates the existing table and the new data separately but never
their concatenation.  The resulting table holds the same
(Film ID, Snapshot Date) key twice, contradicting the function's own
docstring ("ensuring no duplicate Film IDs per snapshot date"). -/
theorem claim_C1_dedup_not_idempotent :
    (save_to_csv [exRow] none).1 = [exRow] ∧
    (save_to_csv [exRow] (some ((save_to_csv [exRow] none).1))).1 = [exRow, exRow] := by
  decide

/-! ### C3: stop conditions of a single observation pass -/

theorem pageEntries_length {α β : Type} (page : Nat) :
    ∀ (films : List (α × β)) (pos : Nat), (pageEntries page pos films).length = films.length
  | [], _ => rfl
  | (_, _) :: rest, pos => by
      simp [pageEntries, pageEntries_length page rest (pos + 1)]

theorem pageEntries_keys {α β : Type} (page : Nat) :
    ∀ (films : List (α × β)) (pos : Nat),
      OMap.keys (pageEntries page pos films) = films.map Prod.fst
  | [], _ => rfl
  | (_, _) :: rest, pos => by
      simp [pageEntries, OMap.keys] at *
      simpa [OMap.keys] using pageEntries_keys page rest (pos + 1)

/-- When a page's films are pairwise distinct and all unseen, the position
loop appends one entry per film, positions counting up from `pos`. -/
theorem recordPageFrom_fresh {α β : Type} [DecidableEq α] (page : Nat) :
    ∀ (films : List (α × β)) (fd : OMap α (β × Nat × Nat)) (pos : Nat),
      (films.map Prod.fst).Nodup →
      (∀ x ∈ films, x.1 ∉ OMap.keys fd) →
      recordPageFrom page fd pos films = fd ++ pageEntries page pos films
  | [], fd, pos, _, _ => by simp [recordPageFrom, pageEntries]
  | (film_id, film_url) :: rest, fd, pos, hnodup, hfresh => by
      have hid : film_id ∉ OMap.keys fd :=
        hfresh (film_id, film_url) (List.mem_cons_self _ _)
      have hlook : OMap.lookup fd film_id = none :=
        (OMap.lookup_eq_none_iff fd film_id).2 hid
      have hrec : recordFilm fd page pos film_id film_url =
          fd ++ [(film_id, (film_url, page, pos))] := by
        rw [recordFilm, hlook]
        exact OMap.insert_of_not_mem _ hid
      have hnodup' : (rest.map Prod.fst).Nodup := by
        simpa using hnodup.of_cons
      have hhead : film_id ∉ rest.map Prod.fst := by
        have := hnodup
        simp only [List.map_cons, List.nodup_cons] at this
        exact this.1
      have hfresh' : ∀ x ∈ rest, x.1 ∉ OMap.keys (fd ++ [(film_id, (film_url, page, pos))]) := by
        intro x hx
        have hx1 : x.1 ∉ OMap.keys fd := hfresh x (List.mem_cons_of_mem _ hx)
        have hx2 : x.1 ≠ film_id := by
          intro hcontra
          exact hhead (hcontra ▸ List.mem_map_of_mem Prod.fst hx)
        simp [OMap.keys, hx1, hx2]
        simpa [OMap.keys] using hx1
      calc recordPageFrom page fd pos ((film_id, film_url) :: rest)
      _ = recordPageFrom page (fd ++ [(film_id, (film_url, page, pos))]) (pos + 1) rest := by
            rw [recordPageFrom, hrec]
      _ = (fd ++ [(film_id, (film_url, page, pos))]) ++ pageEntries page (pos + 1) rest :=
            recordPageFrom_fresh page rest _ (pos + 1) hnodup' hfresh'
      _ = fd ++ pageEntries page pos ((film_id, film_url) :: rest) := by
            rw [List.append_assoc]
            rfl

theorem bigPage_fst : bigPage.map Prod.fst = List.range MAX_FILMS := by
  unfold bigPage
  rw [List.map_map, show (Prod.fst ∘ fun i : Nat => (i, i)) = id from funext fun _ => rfl,
    List.map_id]

theorem bigPage_not_isEmpty : bigPage.isEmpty = false := by
  simp only [List.isEmpty_eq_false, bigPage, ne_eq, List.map_eq_nil_iff,
    List.range_eq_nil, MAX_FILMS]
  omega

theorem singlePassAux_step {α β : Type} [DecidableEq α]
    {fetch : Nat → Option (List (α × β))} {page : Nat} {films : List (α × β)}
    (fuel : Nat) (fd : OMap α (β × Nat × Nat))
    (hf : fetch page = some films) (hne : films.isEmpty = false) :
    singlePassAux fetch (fuel + 1) page fd =
      singlePassAux fetch fuel (page + 1) (recordPage fd page films) := by
  simp [singlePassAux, hf, hne]

theorem scrape_c3Fetch_one :
    scrape_ajax_pages_single_pass c3Fetch 1 = recordPage [] 1 bigPage := by
  have hstep1 : c3Fetch 1 = some bigPage := rfl
  rw [scrape_ajax_pages_single_pass,
    singlePassAux_step 0 [] hstep1 bigPage_not_isEmpty]
  rfl

theorem scrape_c3Fetch_two :
    scrape_ajax_pages_single_pass c3Fetch 2 =
      recordPage (recordPage [] 1 bigPage) 2 [(2000, 42)] := by
  have hstep1 : c3Fetch 1 = some bigPage := rfl
  have hstep2 : c3Fetch 2 = some [(2000, 42)] := rfl
  have hne2 : ([((2000 : Nat), (42 : Nat))]).isEmpty = false := rfl
  rw [scrape_ajax_pages_single_pass,
    singlePassAux_step 1 [] hstep1 bigPage_not_isEmpty,
    singlePassAux_step 0 (recordPage [] 1 bigPage) hstep2 hne2]
  rfl

/-- C3 counterexample: page 1 already carries MAX_FILMS (1000) distinct
films, so after page 1 the running count has reached MAX_ITEMS; yet the
pass still fetches page 2 and records its film (id 2000) — refuting the
claimed stop condition "running count has reached MAX_ITEMS".  The page
loop of `scrape_ajax_pages_single_pass` never consults the count. -/
theorem claim_C3_counterexample :
    (scrape_ajax_pages_single_pass c3Fetch 1).length = MAX_FILMS ∧
    OMap.lookup (scrape_ajax_pages_single_pass c3Fetch 2) 2000 = some (42, 2, 1) := by
  have hnodup : (bigPage.map Prod.fst).Nodup := by
    rw [bigPage_fst]; exact List.nodup_range _
  have hfd1 : recordPage ([] : OMap Nat (Nat × Nat × Nat)) 1 bigPage =
      pageEntries 1 1 bigPage := by
    rw [recordPage, recordPageFrom_fresh 1 bigPage [] 1 hnodup
      (by intro x _; simp [OMap.keys])]
    exact List.nil_append _
  have h2000 : (2000 : Nat) ∉ OMap.keys (pageEntries 1 1 bigPage) := by
    rw [pageEntries_keys, bigPage_fst]
    simp [MAX_FILMS]
  constructor
  · rw [scrape_c3Fetch_one, hfd1, pageEntries_length]
    simp [bigPage]
  · rw [scrape_c3Fetch_two, hfd1, recordPage,
      recordPageFrom_fresh 2 [(2000, 42)] _ 1 (by simp)
      (by intro x hx; simp only [List.mem_singleton] at hx; subst hx; exact h2000)]
    rw [show pageEntries 2 1 [((2000 : Nat), (42 : Nat))] = [(2000, (42, 2, 1))] from rfl]
    rw [OMap.lookup_append_right _ h2000]
    exact OMap.lookup_singleton _ _

theorem pageRange_succ (start fuel : Nat) :
    pageRange start (fuel + 1) = start :: pageRange (start + 1) fuel := by
  unfold pageRange
  rw [List.range_succ_eq_map, List.map_cons, List.map_map, Nat.zero_add]
  congr 1
  apply List.map_congr_left
  intro a _
  simp only [Function.comp]
  omega

theorem singlePassAux_eq_processAllPages {α β : Type} [DecidableEq α]
    (fetch : Nat → Option (List (α × β))) :
    ∀ (fuel page : Nat) (fd : OMap α (β × Nat × Nat)),
      singlePassAux fetch fuel page fd =
        processAllPages fetch fd ((pageRange page fuel).takeWhile (pageOK fetch))
  | 0, page, fd => by simp [singlePassAux, processAllPages, pageRange]
  | fuel + 1, page, fd => by
      rw [pageRange_succ]
      cases hf : fetch page with
      | none =>
          have hok : pageOK fetch page = false := by simp [pageOK, hf]
          simp [singlePassAux, hf, hok, processAllPages]
      | some films =>
          cases hemp : films.isEmpty with
          | true =>
              have hok : pageOK fetch page = false := by simp [pageOK, hf, hemp]
              simp [singlePassAux, hf, hemp, hok, processAllPages]
          | false =>
              have hok : pageOK fetch page = true := by simp [pageOK, hf, hemp]
              rw [show singlePassAux fetch (fuel + 1) page fd =
                  singlePassAux fetch fuel (page + 1) (recordPage fd page films) by
                simp [singlePassAux, hf, hemp]]
              rw [List.takeWhile_cons_of_pos hok]
              rw [show processAllPages fetch fd
                    (page :: (pageRange (page + 1) fuel).takeWhile (pageOK fetch)) =
                  processAllPages fetch (recordPage fd page ((fetch page).getD []))
                    ((pageRange (page + 1) fuel).takeWhile (pageOK fetch)) from rfl]
              rw [hf]
              exact singlePassAux_eq_processAllPages fetch fuel (page + 1) _

/-- C3 (amended): a single observation pass processes exactly the maximal
prefix of pages `1 .. pages` on which every fetch succeeds and yields at
least one film — it stops at the first fetch failure or empty page, and
these are the only stop conditions; the running count of collected items
is never consulted (the MAX_ITEMS cap is applied later, by truncation in
`scrape_top_films`). -/
theorem claim_C3_stop_conditions {α β : Type} [DecidableEq α]
    (fetch : Nat → Option (List (α × β))) (pages : Nat) :
    scrape_ajax_pages_single_pass fetch pages =
      processAllPages fetch [] ((pageRange 1 pages).takeWhile (pageOK fetch)) :=
  singlePassAux_eq_processAllPages fetch pages 1 []

/-! ### C2: which pass's locator survives reconciliation -/

/-- Once a film has a score, further entries never change its URL. -/
theorem foldPassEntry_chain_preserves {α β : Type} [DecidableEq α] :
    ∀ (entries : List (α × (β × Nat × Nat))) (acc : OMap α (Score β)) (fid : α)
      (s : Score β), OMap.lookup acc fid = some s →
      ∃ s', OMap.lookup (List.foldl foldPassEntry acc entries) fid = some s' ∧
        s'.film_url = s.film_url
  | [], acc, fid, s, h => ⟨s, h, rfl⟩
  | e :: rest, acc, fid, s, h => by
      rw [List.foldl_cons]
      by_cases h1 : e.1 = fid
      · subst h1
        have hstep : foldPassEntry acc e = OMap.insert acc e.1 (updateScore s e.2.2.1) := by
          rw [foldPassEntry, h]
        have hlook : OMap.lookup (foldPassEntry acc e) e.1 =
            some (updateScore s e.2.2.1) := by
          rw [hstep]
          exact OMap.lookup_insert_self acc e.1 (updateScore s e.2.2.1)
        obtain ⟨s', hs', hurl⟩ :=
          foldPassEntry_chain_preserves rest (foldPassEntry acc e) e.1 _ hlook
        exact ⟨s', hs', by rw [hurl]; rfl⟩
      · have hlook : OMap.lookup (foldPassEntry acc e) fid = some s := by
          rw [foldPassEntry]
          cases h2 : OMap.lookup acc e.1 <;>
            rw [OMap.lookup_insert_ne _ _ h1] <;> exact h
        exact foldPassEntry_chain_preserves rest (foldPassEntry acc e) fid s hlook

/-- A film unseen so far gets, after one pass is folded in, the URL of its
first binding in that pass — or stays absent if the pass misses it. -/
theorem foldPassEntry_chain_new {α β : Type} [DecidableEq α] :
    ∀ (entries : List (α × (β × Nat × Nat))) (acc : OMap α (Score β)) (fid : α),
      OMap.lookup acc fid = none →
      ((OMap.lookup entries fid = none ∧
          OMap.lookup (List.foldl foldPassEntry acc entries) fid = none) ∨
        (∃ v s', OMap.lookup entries fid = some v ∧
          OMap.lookup (List.foldl foldPassEntry acc entries) fid = some s' ∧
          s'.film_url = v.1))
  | [], acc, fid, h => Or.inl ⟨rfl, h⟩
  | e :: rest, acc, fid, h => by
      rw [List.foldl_cons]
      by_cases h1 : e.1 = fid
      · subst h1
        have hstep : foldPassEntry acc e =
            OMap.insert acc e.1 (initScore e.2.1 e.2.2.1) := by
          rw [foldPassEntry, h]
        have hlook : OMap.lookup (foldPassEntry acc e) e.1 =
            some (initScore e.2.1 e.2.2.1) := by
          rw [hstep]
          exact OMap.lookup_insert_self acc e.1 (initScore e.2.1 e.2.2.1)
        obtain ⟨s', hs', hurl⟩ :=
          foldPassEntry_chain_preserves rest (foldPassEntry acc e) e.1 _ hlook
        refine Or.inr ⟨e.2, s', ?_, hs', by rw [hurl]; rfl⟩
        rcases e with ⟨k, v⟩
        simp [OMap.lookup]
      · have hlook : OMap.lookup (foldPassEntry acc e) fid = none := by
          rw [foldPassEntry]
          cases h2 : OMap.lookup acc e.1 <;>
            rw [OMap.lookup_insert_ne _ _ h1] <;> exact h
        have hcons : OMap.lookup (e :: rest) fid = OMap.lookup rest fid := by
          rcases e with ⟨k, v⟩
          simp only at h1
          simp [OMap.lookup, h1]
        rw [hcons]
        exact foldPassEntry_chain_new rest (foldPassEntry acc e) fid hlook

/-- Folding whole passes never changes an existing film's URL. -/
theorem foldPass_chain_preserves {α β : Type} [DecidableEq α] :
    ∀ (passes : List (OMap α (β × Nat × Nat))) (acc : OMap α (Score β)) (fid : α)
      (s : Score β), OMap.lookup acc fid = some s →
      ∃ s', OMap.lookup (List.foldl foldPass acc passes) fid = some s' ∧
        s'.film_url = s.film_url
  | [], _, _, s, h => ⟨s, h, rfl⟩
  | p :: rest, acc, fid, s, h => by
      rw [List.foldl_cons]
      obtain ⟨s₁, hs₁, hurl₁⟩ := foldPassEntry_chain_preserves p acc fid s h
      obtain ⟨s', hs', hurl'⟩ := foldPass_chain_preserves rest (foldPass acc p) fid s₁ hs₁
      exact ⟨s', hs', by rw [hurl', hurl₁]⟩

/-- Starting from a state missing a film, folding the passes gives the film
the URL recorded by the first pass that contains it. -/
theorem foldPass_chain_url {α β : Type} [DecidableEq α] :
    ∀ (passes : List (OMap α (β × Nat × Nat))) (acc : OMap α (Score β)) (fid : α),
      OMap.lookup acc fid = none →
      (OMap.lookup (List.foldl foldPass acc passes) fid).map Score.film_url =
        (passes.findSome? (fun p => OMap.lookup p fid)).map (fun v => v.1)
  | [], acc, fid, h => by simp [h]
  | p :: rest, acc, fid, h => by
      rw [List.foldl_cons, List.findSome?_cons]
      rcases foldPassEntry_chain_new p acc fid h with ⟨hp, hacc'⟩ | ⟨v, s', hp, hacc', hurl⟩
      · rw [hp]
        exact foldPass_chain_url rest (foldPass acc p) fid hacc'
      · rw [hp]
        obtain ⟨s'', hs'', hurl''⟩ := foldPass_chain_preserves rest (foldPass acc p) fid s' hacc'
        rw [hs'']
        simp [hurl'', hurl]

/-- C2 (amended): the locator carried into the reconciled score of a film
is the locator recorded by the first pass, in iteration order, in which the
film appeared at all — not the pass that achieved the minimal page.  The
combination loop of `scrape_top_films` sets `film_url` on first sight and
never updates it. -/
theorem claim_C2_first_pass_url {α β : Type} [DecidableEq α]
    (passes : List (OMap α (β × Nat × Nat))) (film_id : α) (s : Score β)
    (h : OMap.lookup (buildScores passes) film_id = some s) :
    firstPassUrl passes film_id = some s.film_url := by
  unfold buildScores at h
  have := foldPass_chain_url passes [] film_id rfl
  rw [h] at this
  unfold firstPassUrl
  exact this.symm

/-- Witness for the amended C2: film 1 of `passes56` appears in both
passes, first in pass 0 with locator 10, and its reconciled score carries
locator 10. -/
theorem claim_C2_first_pass_url_witness :
    firstPassUrl passes56 1 = some (10 : Nat) :=
  claim_C2_first_pass_url passes56 1 ⟨1, 1, 2, 10, [1, 1]⟩ (by decide)

/-- C2 counterexample: film 7 is seen by pass 0 on page 2 with locator 100
and by pass 1 on page 1 with locator 200, so its earliest page (1) is
achieved only by pass 1, whose recorded locator is 200.  The claim demands
locator 200 in the output, but `scrape_top_films` emits locator 100 — the
URL of the first pass that saw the film — because the combination loop
never updates `film_url` when a later pass improves the earliest page. -/
theorem claim_C2_counterexample :
    scrape_ajax_pages_single_pass (c2Fetch 0) 2 = [(9, (90, 1, 1)), (7, (100, 2, 1))] ∧
    scrape_ajax_pages_single_pass (c2Fetch 1) 2 = [(7, (200, 1, 1))] ∧
    scrape_top_films c2Fetch 2 2 = [(9, 90), (7, 100)] :=
  ⟨by decide, by decide, by with_unfolding_all decide⟩

/-! ### C5, C6: the sort key orders the reconciled films -/

theorem keyLE_trans (p q r : Nat × ℚ × Int) (h1 : keyLE p q) (h2 : keyLE q r) :
    keyLE p r := by
  unfold keyLE at *
  rcases h1 with h1 | ⟨e1, h1⟩
  · rcases h2 with h2 | ⟨e2, h2⟩
    · exact Or.inl (h1.trans h2)
    · exact Or.inl (e2 ▸ h1)
  · rcases h2 with h2 | ⟨e2, h2⟩
    · exact Or.inl (e1 ▸ h2)
    · refine Or.inr ⟨e1.trans e2, ?_⟩
      rcases h1 with h1 | ⟨f1, h1⟩
      · rcases h2 with h2 | ⟨f2, h2⟩
        · exact Or.inl (h1.trans h2)
        · exact Or.inl (f2 ▸ h1)
      · rcases h2 with h2 | ⟨f2, h2⟩
        · exact Or.inl (f1 ▸ h2)
        · exact Or.inr ⟨f1.trans f2, le_trans h1 h2⟩

theorem keyLE_total (p q : Nat × ℚ × Int) : keyLE p q ∨ keyLE q p := by
  unfold keyLE
  rcases lt_trichotomy p.1 q.1 with h | h | h
  · exact Or.inl (Or.inl h)
  · rcases lt_trichotomy p.2.1 q.2.1 with h' | h' | h'
    · exact Or.inl (Or.inr ⟨h, Or.inl h'⟩)
    · rcases le_total p.2.2 q.2.2 with h'' | h''
      · exact Or.inl (Or.inr ⟨h, Or.inr ⟨h', h''⟩⟩)
      · exact Or.inr (Or.inr ⟨h.symm, Or.inr ⟨h'.symm, h''⟩⟩)
    · exact Or.inr (Or.inr ⟨h.symm, Or.inl h'⟩)
  · exact Or.inr (Or.inl h)

instance sortRel.instIsTrans {α β : Type} [DecidableEq α] :
    IsTrans (α × FullScore β) sortRel :=
  ⟨fun _ _ _ h1 h2 => keyLE_trans _ _ _ h1 h2⟩

instance sortRel.instIsTotal {α β : Type} [DecidableEq α] :
    IsTotal (α × FullScore β) sortRel :=
  ⟨fun a b => keyLE_total (sortKey a.2) (sortKey b.2)⟩

theorem sorted_films_pairwise {α β : Type} [DecidableEq α]
    (passes : List (OMap α (β × Nat × Nat))) :
    (sorted_films passes).Pairwise sortRel :=
  List.sorted_insertionSort sortRel (film_scores_avg passes)

/-- C5: in the sorted film list produced by `scrape_top_films`, any film
with a strictly smaller earliest page is placed strictly before any film
with a larger one, regardless of their average pages and pass counts. -/
theorem claim_C5_earliest_page_priority {α β : Type} [DecidableEq α]
    (passes : List (OMap α (β × Nat × Nat))) (A B : α) (sa sb : FullScore β)
    (i j : Nat) (hi : i < (sorted_films passes).length)
    (hj : j < (sorted_films passes).length)
    (hA : (sorted_films passes).get ⟨i, hi⟩ = (A, sa))
    (hB : (sorted_films passes).get ⟨j, hj⟩ = (B, sb))
    (hlt : sa.earliest_page < sb.earliest_page) :
    i < j := by
  by_contra hc
  push_neg at hc
  rcases Nat.lt_or_ge j i with hji | hij
  · have hp := sorted_films_pairwise passes
    rw [List.pairwise_iff_getElem] at hp
    have hrel := hp j i hj hi hji
    rw [List.get_eq_getElem] at hA hB
    rw [hA, hB] at hrel
    unfold sortRel keyLE sortKey at hrel
    simp only at hrel
    rcases hrel with h | ⟨h, _⟩
    · omega
    · omega
  · have : i = j := le_antisymm hij hc
    subst this
    rw [hA] at hB
    cases hB
    exact absurd hlt (lt_irrefl _)

/-- Witness for C5: in `passes56`, film 1 (earliest page 1) sits at index 0
of the sorted list and film 4 (earliest page 2) at index 3. -/
theorem claim_C5_earliest_page_priority_witness : (0 : Nat) < 3 :=
  claim_C5_earliest_page_priority passes56 1 4
    (addAvg ⟨1, 1, 2, 10, [1, 1]⟩) (addAvg ⟨2, 2, 1, 40, [2]⟩) 0 3
    (by with_unfolding_all decide) (by with_unfolding_all decide)
    (by with_unfolding_all decide) (by with_unfolding_all decide)
    (by decide)

/-- C6: among films sharing the earliest page, the one with the smaller
average page is placed first; and if average pages tie as well, the one
seen in more passes is placed first. -/
theorem claim_C6_tie_breaks {α β : Type} [DecidableEq α]
    (passes : List (OMap α (β × Nat × Nat))) (A B : α) (sa sb : FullScore β)
    (i j : Nat) (hi : i < (sorted_films passes).length)
    (hj : j < (sorted_films passes).length)
    (hA : (sorted_films passes).get ⟨i, hi⟩ = (A, sa))
    (hB : (sorted_films passes).get ⟨j, hj⟩ = (B, sb))
    (hEq : sa.earliest_page = sb.earliest_page)
    (hOr : sa.avg_page < sb.avg_page ∨
      (sa.avg_page = sb.avg_page ∧ sb.num_passes < sa.num_passes)) :
    i < j := by
  by_contra hc
  push_neg at hc
  rcases Nat.lt_or_ge j i with hji | hij
  · have hp := sorted_films_pairwise passes
    rw [List.pairwise_iff_getElem] at hp
    have hrel := hp j i hj hi hji
    rw [List.get_eq_getElem] at hA hB
    rw [hA, hB] at hrel
    unfold sortRel keyLE sortKey at hrel
    simp only at hrel
    rcases hrel with h | ⟨_, h2⟩
    · omega
    · rcases hOr with havg | ⟨havg, hnp⟩
      · rcases h2 with h2 | ⟨h2, _⟩
        · exact absurd (havg.trans h2) (lt_irrefl _)
        · rw [h2] at havg
          exact absurd havg (lt_irrefl _)
      · rcases h2 with h2 | ⟨_, h2⟩
        · rw [havg] at h2
          exact absurd h2 (lt_irrefl _)
        · omega
  · have : i = j := le_antisymm hij hc
    subst this
    rw [hA] at hB
    cases hB
    rcases hOr with havg | ⟨_, hnp⟩
    · exact absurd havg (lt_irrefl _)
    · exact absurd hnp (lt_irrefl _)

/-- Witness for C6: in `passes56`, films 1 and 3 share earliest page 1 and
average page 1, but film 1 was seen in two passes and film 3 in one, so
film 1 (index 0) precedes film 3 (index 1). -/
theorem claim_C6_tie_breaks_witness : (0 : Nat) < 1 :=
  claim_C6_tie_breaks passes56 1 3
    (addAvg ⟨1, 1, 2, 10, [1, 1]⟩) (addAvg ⟨1, 1, 1, 30, [1]⟩) 0 1
    (by with_unfolding_all decide) (by with_unfolding_all decide)
    (by with_unfolding_all decide) (by with_unfolding_all decide)
    (by decide)
    (Or.inr ⟨by with_unfolding_all decide, by decide⟩)

/-! ### C7: enrichment order is schedule-independent -/

/-- What the completion map holds at index `i` after running a schedule:
the task's own fetch result if `i` was scheduled, the prior state
otherwise — regardless of where in the schedule `i` appeared. -/
theorem runSchedule_lookup (films : List (String × String))
    (get_details : String → Option FilmDetails) :
    ∀ (sched : List Nat) (done : OMap Nat (Option FilmDetails)) (i : Nat)
      (film_id film_url : String), films.get? i = some (film_id, film_url) →
      OMap.lookup (sched.foldl (scheduleStep films get_details) done) i =
        if i ∈ sched then some (get_details film_url) else OMap.lookup done i
  | [], done, i, fid, url, _ => by simp
  | j :: rest, done, i, fid, url, hget => by
      rw [List.foldl_cons,
        runSchedule_lookup films get_details rest
          (scheduleStep films get_details done j) i fid url hget]
      by_cases hmem : i ∈ rest
      · rw [if_pos hmem, if_pos (List.mem_cons_of_mem j hmem)]
      · rw [if_neg hmem]
        by_cases hij : j = i
        · subst hij
          rw [if_pos (List.mem_cons_self j rest)]
          have hstep : scheduleStep films get_details done j =
              OMap.insert done j (get_details url) := by
            unfold scheduleStep
            rw [hget]
          rw [hstep]
          exact OMap.lookup_insert_self done j (get_details url)
        · rw [if_neg (by
            simp only [List.mem_cons]
            rintro (h | h)
            · exact hij h.symm
            · exact hmem h)]
          unfold scheduleStep
          cases hg : films.get? j
          · rfl
          · exact OMap.lookup_insert_ne done _ hij

/-- Whenever the schedule completes every submitted task, the concurrent
enrichment collects exactly the schedule-free reference sequence. -/
theorem enrich_concurrent_eq_enrich_list
    (films : List (String × String)) (get_details : String → Option FilmDetails)
    (snapshot_date : String) (sched : List Nat)
    (hcov : ∀ i, i < films.length → i ∈ sched) :
    enrich_concurrent films get_details sched snapshot_date =
      enrich_list films get_details snapshot_date := by
  unfold enrich_concurrent collectRows enrich_list runSchedule
  apply List.filterMap_congr
  intro p hp
  have hget : films.get? p.1 = some p.2 := List.mem_enum_iff_get?.1 hp
  have hlen : p.1 < films.length := by
    rcases List.get?_eq_some.1 hget with ⟨h, _⟩
    exact h
  have hmem : p.1 ∈ sched := hcov p.1 hlen
  rw [runSchedule_lookup films get_details sched [] p.1 p.2.1 p.2.2 hget,
    if_pos hmem]
  cases hd : get_details p.2.2 <;> rfl

/-- Orders of the collected rows are bounded below by `n + 1` and strictly
increasing, whatever subset of fetches succeeds. -/
theorem enrich_rows_order_lt (get_details : String → Option FilmDetails)
    (snapshot_date : String) :
    ∀ (films : List (String × String)) (n : Nat),
      (∀ r ∈ (films.enumFrom n).filterMap
          (fun p => (get_details p.2.2).map
            (fun d => mkRow (p.1 + 1) p.2.1 p.2.2 d snapshot_date)),
        n + 1 ≤ r.order) ∧
      ((films.enumFrom n).filterMap
          (fun p => (get_details p.2.2).map
            (fun d => mkRow (p.1 + 1) p.2.1 p.2.2 d snapshot_date))).Pairwise
        (fun a b => a.order < b.order)
  | [], n => by simp
  | (fid, url) :: rest, n => by
      obtain ⟨ihbound, ihpair⟩ := enrich_rows_order_lt get_details snapshot_date rest (n + 1)
      rw [show List.enumFrom n ((fid, url) :: rest) =
        (n, (fid, url)) :: List.enumFrom (n + 1) rest from rfl]
      rw [List.filterMap_cons]
      cases hd : get_details url with
      | none =>
          simp only [hd, Option.map_none']
          exact ⟨fun r hr => Nat.le_of_succ_le (ihbound r hr), ihpair⟩
      | some d =>
          simp only [hd, Option.map_some']
          constructor
          · intro r hr
            rcases List.mem_cons.1 hr with rfl | hr
            · simp [mkRow]
            · exact Nat.le_of_succ_le (ihbound r hr)
          · refine List.Pairwise.cons ?_ ihpair
            intro r hr
            have := ihbound r hr
            simp only [mkRow]
            omega

/-- The reference enrichment is already ordered by the Order column, so
sorting by Order is the identity on it. -/
theorem sortByOrder_enrich_list (films : List (String × String))
    (get_details : String → Option FilmDetails) (snapshot_date : String) :
    sortByOrder (enrich_list films get_details snapshot_date) =
      enrich_list films get_details snapshot_date := by
  apply List.Sorted.insertionSort_eq
  have h : (enrich_list films get_details snapshot_date).Pairwise
      (fun a b : Row => a.order < b.order) :=
    (enrich_rows_order_lt get_details snapshot_date films 0).2
  exact h.imp fun hab => Nat.le_of_lt hab

/-- With every fetch succeeding, the collected film ids are exactly the
input ids, in order. -/
theorem enrich_rows_ids (get_details : String → Option FilmDetails)
    (snapshot_date : String) :
    ∀ (films : List (String × String)) (n : Nat),
      (∀ p ∈ films, (get_details p.2).isSome) →
      (((films.enumFrom n).filterMap
          (fun p => (get_details p.2.2).map
            (fun d => mkRow (p.1 + 1) p.2.1 p.2.2 d snapshot_date))).map Row.film_id)
        = films.map Prod.fst
  | [], n, _ => rfl
  | (fid, url) :: rest, n, hsucc => by
      rw [show List.enumFrom n ((fid, url) :: rest) =
        (n, (fid, url)) :: List.enumFrom (n + 1) rest from rfl]
      rw [List.filterMap_cons]
      obtain ⟨d, hd⟩ := Option.isSome_iff_exists.1 (hsucc (fid, url) (List.mem_cons_self _ _))
      simp only [hd, Option.map_some']
      rw [List.map_cons, List.map_cons,
        enrich_rows_ids get_details snapshot_date rest (n + 1)
          (fun p hp => hsucc p (List.mem_cons_of_mem _ hp))]
      rfl

/-- C7: the enrichment records of `main`, ordered by their Order column,
reproduce the exact identity sequence of the input ranked list whenever
every per-item fetch succeeds; and any two completion schedules that
complete every submitted task produce identical record sequences — the
output does not depend on completion order. -/
theorem claim_C7_order_preservation
    (films : List (String × String)) (get_details : String → Option FilmDetails)
    (snapshot_date : String) (sched₁ sched₂ : List Nat)
    (hcov₁ : ∀ i, i < films.length → i ∈ sched₁)
    (hcov₂ : ∀ i, i < films.length → i ∈ sched₂)
    (hsucc : ∀ p ∈ films, (get_details p.2).isSome) :
    enrich_concurrent films get_details sched₁ snapshot_date =
      enrich_concurrent films get_details sched₂ snapshot_date ∧
    (sortByOrder (enrich_concurrent films get_details sched₁ snapshot_date)).map
        Row.film_id = films.map Prod.fst := by
  have e1 := enrich_concurrent_eq_enrich_list films get_details snapshot_date sched₁ hcov₁
  have e2 := enrich_concurrent_eq_enrich_list films get_details snapshot_date sched₂ hcov₂
  refine ⟨e1.trans e2.symm, ?_⟩
  rw [e1, sortByOrder_enrich_list]
  exact enrich_rows_ids get_details snapshot_date films 0 hsucc

/-- Witness for C7: two opposite completion schedules of the two-film list
`films7` yield the same records, and the Order-sorted ids are a, b. -/
theorem claim_C7_order_preservation_witness :
    enrich_concurrent films7 gd7 [1, 0] "2026-10-12" =
      enrich_concurrent films7 gd7 [0, 1] "2026-10-12" ∧
    (sortByOrder (enrich_concurrent films7 gd7 [1, 0] "2026-10-12")).map
        Row.film_id = films7.map Prod.fst :=
  claim_C7_order_preservation films7 gd7 "2026-10-12" [1, 0] [0, 1]
    (by
      intro i hi
      have h2 : i < 2 := hi
      interval_cases i <;> decide)
    (by
      intro i hi
      have h2 : i < 2 := hi
      interval_cases i <;> decide)
    (by decide)

/-! ### C4: with one pass, reconciliation is the page/position order -/

theorem OMap.lookup_some_mem [DecidableEq κ] :
    ∀ (m : OMap κ ν) (k : κ) (v : ν), OMap.lookup m k = some v → (k, v) ∈ m
  | [], _, _, h => by simp [OMap.lookup] at h
  | (k', v') :: m, k, v, h => by
      by_cases hk : k' = k
      · subst hk
        rw [OMap.lookup, if_pos rfl] at h
        cases h
        exact List.mem_cons_self _ _
      · rw [OMap.lookup, if_neg hk] at h
        exact List.mem_cons_of_mem _ (OMap.lookup_some_mem m k v h)

/-- Invariant of the position loop: when every stored entry sits strictly
(page, position)-below the loop's current coordinates, the loop keeps the
store strictly ordered and key-unique, with all entries strictly below the
final coordinates. -/
theorem recordPageFrom_invariant {α β : Type} [DecidableEq α] (page : Nat) :
    ∀ (films : List (α × β)) (fd : OMap α (β × Nat × Nat)) (pos : Nat),
      List.Pairwise pagePosLT fd →
      (∀ e ∈ fd, e.2.2.1 < page ∨ (e.2.2.1 = page ∧ e.2.2.2 < pos)) →
      (OMap.keys fd).Nodup →
      List.Pairwise pagePosLT (recordPageFrom page fd pos films) ∧
      (∀ e ∈ recordPageFrom page fd pos films,
        e.2.2.1 < page ∨ (e.2.2.1 = page ∧ e.2.2.2 < pos + films.length)) ∧
      (OMap.keys (recordPageFrom page fd pos films)).Nodup
  | [], fd, pos, hpair, hbound, hnd => by
      refine ⟨hpair, ?_, hnd⟩
      simpa using hbound
  | (fid, url) :: rest, fd, pos, hpair, hbound, hnd => by
      rw [recordPageFrom]
      cases hlook : OMap.lookup fd fid with
      | some v =>
          rcases v with ⟨u, ep, p'⟩
          have hmem : (fid, (u, ep, p')) ∈ fd := OMap.lookup_some_mem fd fid _ hlook
          have hb : ep < page ∨ (ep = page ∧ p' < pos) := hbound _ hmem
          have hnlt : ¬ page < ep := by
            rcases hb with h | ⟨h, _⟩ <;> omega
          have hrec : recordFilm fd page pos fid url = fd := by
            unfold recordFilm
            rw [hlook]
            exact if_neg hnlt
          rw [hrec]
          have hbound' : ∀ e ∈ fd, e.2.2.1 < page ∨ (e.2.2.1 = page ∧ e.2.2.2 < pos + 1) := by
            intro e he
            rcases hbound e he with h | ⟨h1, h2⟩
            · exact Or.inl h
            · exact Or.inr ⟨h1, by omega⟩
          obtain ⟨ih1, ih2, ih3⟩ :=
            recordPageFrom_invariant page rest fd (pos + 1) hpair hbound' hnd
          refine ⟨ih1, ?_, ih3⟩
          intro e he
          rcases ih2 e he with h | ⟨h1, h2⟩
          · exact Or.inl h
          · exact Or.inr ⟨h1, by simp only [List.length_cons]; omega⟩
      | none =>
          have hfid : fid ∉ OMap.keys fd := (OMap.lookup_eq_none_iff fd fid).1 hlook
          have hrec : recordFilm fd page pos fid url =
              fd ++ [(fid, (url, page, pos))] := by
            unfold recordFilm
            rw [hlook]
            exact OMap.insert_of_not_mem _ hfid
          rw [hrec]
          have hpair' : List.Pairwise pagePosLT (fd ++ [(fid, (url, page, pos))]) := by
            rw [List.pairwise_append]
            refine ⟨hpair, List.pairwise_singleton _ _, ?_⟩
            intro a ha b hb
            rw [List.mem_singleton] at hb
            subst hb
            unfold pagePosLT
            rcases hbound a ha with h | ⟨h1, h2⟩
            · exact Or.inl h
            · exact Or.inr ⟨h1, h2⟩
          have hbound' : ∀ e ∈ fd ++ [(fid, (url, page, pos))],
              e.2.2.1 < page ∨ (e.2.2.1 = page ∧ e.2.2.2 < pos + 1) := by
            intro e he
            rcases List.mem_append.1 he with he | he
            · rcases hbound e he with h | ⟨h1, h2⟩
              · exact Or.inl h
              · exact Or.inr ⟨h1, by omega⟩
            · rw [List.mem_singleton] at he
              subst he
              exact Or.inr ⟨rfl, Nat.lt_succ_self pos⟩
          have hnd' : (OMap.keys (fd ++ [(fid, (url, page, pos))])).Nodup := by
            rw [show OMap.keys (fd ++ [(fid, (url, page, pos))]) =
                OMap.keys fd ++ [fid] by simp [OMap.keys]]
            rw [List.nodup_append]
            refine ⟨hnd, List.nodup_singleton _, ?_⟩
            intro a ha hb
            rw [List.mem_singleton] at hb
            subst hb
            exact hfid ha
          obtain ⟨ih1, ih2, ih3⟩ :=
            recordPageFrom_invariant page rest _ (pos + 1) hpair' hbound' hnd'
          refine ⟨ih1, ?_, ih3⟩
          intro e he
          rcases ih2 e he with h | ⟨h1, h2⟩
          · exact Or.inl h
          · exact Or.inr ⟨h1, by simp only [List.length_cons]; omega⟩

/-- Invariant of the page loop: the observation dict is built in strictly
increasing (page, position) order with unique keys. -/
theorem singlePassAux_invariant {α β : Type} [DecidableEq α]
    (fetch : Nat → Option (List (α × β))) :
    ∀ (fuel page : Nat) (fd : OMap α (β × Nat × Nat)),
      List.Pairwise pagePosLT fd →
      (∀ e ∈ fd, e.2.2.1 < page) →
      (OMap.keys fd).Nodup →
      List.Pairwise pagePosLT (singlePassAux fetch fuel page fd) ∧
      (OMap.keys (singlePassAux fetch fuel page fd)).Nodup
  | 0, _, _, hpair, _, hnd => ⟨hpair, hnd⟩
  | fuel + 1, page, fd, hpair, hbound, hnd => by
      cases hf : fetch page with
      | none =>
          rw [show singlePassAux fetch (fuel + 1) page fd = fd by
            simp [singlePassAux, hf]]
          exact ⟨hpair, hnd⟩
      | some films =>
          cases hemp : films.isEmpty with
          | true =>
              rw [show singlePassAux fetch (fuel + 1) page fd = fd by
                simp [singlePassAux, hf, hemp]]
              exact ⟨hpair, hnd⟩
          | false =>
              rw [singlePassAux_step fuel fd hf hemp]
              obtain ⟨h1, h2, h3⟩ := recordPageFrom_invariant page films fd 1 hpair
                (fun e he => Or.inl (hbound e he)) hnd
              have hb' : ∀ e ∈ recordPage fd page films, e.2.2.1 < page + 1 := by
                intro e he
                rcases h2 e he with h | ⟨h, _⟩ <;> omega
              exact singlePassAux_invariant fetch fuel (page + 1)
                (recordPage fd page films) h1 hb' h3

theorem scrape_single_pass_sorted {α β : Type} [DecidableEq α]
    (fetch : Nat → Option (List (α × β))) (pages : Nat) :
    List.Pairwise pagePosLT (scrape_ajax_pages_single_pass fetch pages) ∧
    (OMap.keys (scrape_ajax_pages_single_pass fetch pages)).Nodup :=
  singlePassAux_invariant fetch pages 1 [] (List.Pairwise.nil)
    (fun _ he => absurd he (List.not_mem_nil _)) List.nodup_nil

/-- Folding a pass whose keys are fresh and pairwise distinct just appends
one initial score per entry. -/
theorem foldl_foldPassEntry_fresh {α β : Type} [DecidableEq α] :
    ∀ (m : OMap α (β × Nat × Nat)) (acc : OMap α (Score β)),
      (∀ e ∈ m, OMap.lookup acc e.1 = none) →
      (OMap.keys m).Nodup →
      List.foldl foldPassEntry acc m =
        acc ++ m.map (fun e => (e.1, initScore e.2.1 e.2.2.1))
  | [], acc, _, _ => by simp
  | e :: rest, acc, hfresh, hnd => by
      rw [List.foldl_cons]
      have hhead : OMap.lookup acc e.1 = none := hfresh e (List.mem_cons_self _ _)
      have hstep : foldPassEntry acc e = acc ++ [(e.1, initScore e.2.1 e.2.2.1)] := by
        unfold foldPassEntry
        rw [hhead]
        exact OMap.insert_of_not_mem _ ((OMap.lookup_eq_none_iff acc e.1).1 hhead)
      have hndk : e.1 ∉ OMap.keys rest ∧ (OMap.keys rest).Nodup := by
        have h := hnd
        rw [show OMap.keys (e :: rest) = e.1 :: OMap.keys rest from rfl,
          List.nodup_cons] at h
        exact h
      have hfresh' : ∀ x ∈ rest,
          OMap.lookup (acc ++ [(e.1, initScore e.2.1 e.2.2.1)]) x.1 = none := by
        intro x hx
        rw [OMap.lookup_eq_none_iff,
          show OMap.keys (acc ++ [(e.1, initScore e.2.1 e.2.2.1)]) =
            OMap.keys acc ++ [e.1] by simp [OMap.keys],
          List.mem_append]
        rintro (h | h)
        · exact ((OMap.lookup_eq_none_iff acc x.1).1
            (hfresh x (List.mem_cons_of_mem _ hx))) h
        · rw [List.mem_singleton] at h
          exact hndk.1 (h ▸ List.mem_map_of_mem Prod.fst hx)
      rw [hstep, foldl_foldPassEntry_fresh rest _ hfresh' hndk.2, List.append_assoc]
      rfl

theorem avgOf_single (page : Nat) : avgOf [page] = (page : ℚ) := by
  unfold avgOf
  simp

theorem pagePosLT_le {α β : Type} (a b : α × (β × Nat × Nat)) (h : pagePosLT a b) :
    pagePosRel a b := by
  unfold pagePosLT at h
  unfold pagePosRel
  rcases h with h | ⟨h1, h2⟩
  · exact Or.inl h
  · exact Or.inr ⟨h1, Nat.le_of_lt h2⟩

/-- A (page, position)-ordered pass produces sort keys already in
`sortRel` order: every entry becomes (page, page, -1). -/
theorem pairwise_sortRel_of_pagePosLT {α β : Type} [DecidableEq α]
    {m : OMap α (β × Nat × Nat)} (h : List.Pairwise pagePosLT m) :
    (m.map (fun e => (e.1, addAvg (initScore e.2.1 e.2.2.1)))).Pairwise sortRel := by
  refine List.Pairwise.map _ ?_ h
  intro a b hab
  unfold pagePosLT at hab
  unfold sortRel keyLE sortKey
  rcases hab with hlt | ⟨h1, _⟩
  · exact Or.inl hlt
  · right
    refine ⟨h1, Or.inr ⟨?_, le_refl _⟩⟩
    show avgOf (initScore a.2.1 a.2.2.1).total_positions =
      avgOf (initScore b.2.1 b.2.2.1).total_positions
    rw [show (initScore a.2.1 a.2.2.1).total_positions = [a.2.2.1] from rfl,
      show (initScore b.2.1 b.2.2.1).total_positions = [b.2.2.1] from rfl,
      avgOf_single, avgOf_single, h1]

/-- C4: with a single pass, the ranked list of `scrape_top_films` is the
pass's films ordered by (earliest page, position on that page), truncated
to MAX_FILMS — the reconciliation degenerates to the page/position order
described by the spec. -/
theorem claim_C4_single_pass_equiv {α β : Type} [DecidableEq α]
    (fetch : Nat → Nat → Option (List (α × β))) (pages : Nat) :
    scrape_top_films fetch pages 1 =
      singlePassRankedSpec (scrape_ajax_pages_single_pass (fetch 0) pages) := by
  obtain ⟨hsort, hnodup⟩ := scrape_single_pass_sorted (fetch 0) pages
  have h1 : scrape_top_films fetch pages 1 =
      reconcilePasses [scrape_ajax_pages_single_pass (fetch 0) pages] := rfl
  have h2 : buildScores [scrape_ajax_pages_single_pass (fetch 0) pages] =
      (scrape_ajax_pages_single_pass (fetch 0) pages).map
        (fun e => (e.1, initScore e.2.1 e.2.2.1)) := by
    show List.foldl foldPassEntry []
        (scrape_ajax_pages_single_pass (fetch 0) pages) = _
    rw [foldl_foldPassEntry_fresh _ [] (fun _ _ => rfl) hnodup]
    exact List.nil_append _
  have h3 : film_scores_avg [scrape_ajax_pages_single_pass (fetch 0) pages] =
      (scrape_ajax_pages_single_pass (fetch 0) pages).map
        (fun e => (e.1, addAvg (initScore e.2.1 e.2.2.1))) := by
    unfold film_scores_avg
    rw [h2, List.map_map]
    rfl
  have h4 : sorted_films [scrape_ajax_pages_single_pass (fetch 0) pages] =
      film_scores_avg [scrape_ajax_pages_single_pass (fetch 0) pages] := by
    apply List.Sorted.insertionSort_eq
    rw [h3]
    exact pairwise_sortRel_of_pagePosLT hsort
  have h5 : List.insertionSort pagePosRel
      (scrape_ajax_pages_single_pass (fetch 0) pages) =
      scrape_ajax_pages_single_pass (fetch 0) pages :=
    List.Sorted.insertionSort_eq (hsort.imp (pagePosLT_le _ _))
  rw [h1]
  unfold reconcilePasses singlePassRankedSpec
  rw [h4, h3, h5, ← List.map_take, List.map_map]
  apply List.map_congr_left
  intro e _
  rfl

/-! ### C9: an empty ranked list leaves the history file untouched -/

/-- C9: whenever the reconciled ranked list is empty, `main` returns
immediately: the enrichment stage is skipped, no file operation is
performed, and the history file state — present or absent — is unchanged. -/
theorem claim_C9_empty_run
    (fetch : Nat → Nat → Option (List (String × String)))
    (get_details : String → Option FilmDetails) (pages num_passes : Nat)
    (sched : List Nat) (snapshot_date : String) (file : Option (List Row))
    (h : scrape_top_films fetch pages num_passes = []) :
    mainRun fetch get_details pages num_passes sched snapshot_date file =
      ⟨file, [], false⟩ := by
  simp [mainRun, h]

/-- Witness for C9: a listing whose pages are all empty yields an empty
ranked list, and the run leaves an existing history file exactly as it
was, with no read and no write. -/
theorem claim_C9_empty_run_witness :
    scrape_top_films emptyFetch 14 2 = [] ∧
    mainRun emptyFetch gdNone 14 2 [] "2026-10-12" (some [exRow]) =
      ⟨some [exRow], [], false⟩ :=
  ⟨by decide,
   claim_C9_empty_run emptyFetch gdNone 14 2 [] "2026-10-12" (some [exRow]) (by decide)⟩

end PopFilmScraper
